import Mathlib

/-!
Shallow embedding of the lattice pricing engine: the simple binomial
rates module (binomial_rates_model_bond_pricing.py) and the BDT
calibration module (BDT_rates_model_ZCB_pricing.py).

Numpy arrays are modelled as total functions of (row, column); entries
the source leaves untouched in its zero-initialised arrays are 0 here
as well.  Backward-induction lattices are expressed with an explicit
fuel argument n = maturity - column, which mirrors the loop counter of
the source running from the terminal column down to the root.
-/

section LatticeDefs

variable {α : Type} [LinearOrderedField α]

/-- Row recurrence of the simple rate lattice: row 0 is seeded with
powers of the up factor applied to the initial rate, and each later row
is the previous row, shifted one column, multiplied by the down factor
(`rt[0,:] = r*u**linspace`, `rt[i, i:] = d*rt[i-1, i-1:t]`). -/
def ratesRow (r u d : α) : ℕ → ℕ → α
  | 0, j => r * u ^ j
  | i + 1, j => d * ratesRow r u d i (j - 1)

/-- Forward induction for the elementary price lattice: column j+1 is
computed from column j.  The first source loop writes the top edge with
coefficient qu and the diagonal with coefficient qd; the second loop
writes interior rows from both predecessors. -/
def eptCol (rt : ℕ → ℕ → α) (qu qd : α) : ℕ → ℕ → α
  | 0 => fun k => if k = 0 then 1 else 0
  | j + 1 => fun k =>
      if k = 0 then qu * (eptCol rt qu qd j 0 / (1 + rt 0 j))
      else if k = j + 1 then qd * (eptCol rt qu qd j j / (1 + rt j j))
      else if k ≤ j then
        qu * (1 / (1 + rt (k - 1) j)) * eptCol rt qu qd j (k - 1)
          + qd * (1 / (1 + rt k j)) * eptCol rt qu qd j k
      else 0

/-- Entry (k, j) of the elementary price lattice built on the rate
lattice rt. -/
def eptAux (rt : ℕ → ℕ → α) (qu qd : α) (k j : ℕ) : α := eptCol rt qu qd j k

/-- Sum of column j of the elementary price lattice.  Rows below the
diagonal are structurally zero, so rows 0..j carry the whole column. -/
def eptColSum (rt : ℕ → ℕ → α) (qu qd : α) (j : ℕ) : α :=
  ∑ i ∈ Finset.range (j + 1), eptAux rt qu qd i j

/-- Backward induction for the zero coupon bond lattice; n counts the
periods left to maturity at column j
(`zcb[:i+1,i] = (1/(1+rt))*(qu*up + qd*down)`). -/
def zcbVal (rt : ℕ → ℕ → α) (qu qd face : α) : ℕ → ℕ → ℕ → α
  | 0, _, _ => face
  | n + 1, k, j =>
      (1 / (1 + rt k j)) *
        (qu * zcbVal rt qu qd face n k (j + 1) + qd * zcbVal rt qu qd face n (k + 1) (j + 1))

/-- Backward induction for the coupon bond lattice: terminal value
(1+c)*face, every earlier column accrues the coupon face*c before the
discounted expectation. -/
def cbVal (rt : ℕ → ℕ → α) (qu qd face c : α) : ℕ → ℕ → ℕ → α
  | 0, _, _ => (1 + c) * face
  | n + 1, k, j =>
      face * c + (1 / (1 + rt k j)) *
        (qu * cbVal rt qu qd face c n k (j + 1) + qd * cbVal rt qu qd face c n (k + 1) (j + 1))

/-- Backward induction for the forward's coupon bond lattice: columns
strictly after ft accrue the coupon, columns ft and earlier are pure
discounted expectations. -/
def fwdVal (rt : ℕ → ℕ → α) (qu qd face c : α) (ft : ℕ) : ℕ → ℕ → ℕ → α
  | 0, _, _ => (1 + c) * face
  | n + 1, k, j =>
      (if ft < j then face * c else 0) + (1 / (1 + rt k j)) *
        (qu * fwdVal rt qu qd face c ft n k (j + 1) + qd * fwdVal rt qu qd face c ft n (k + 1) (j + 1))

/-- Backward induction for the futures lattice: coupon accrual strictly
after column ft, a discounted no-coupon step at column ft, and a plain
undiscounted expectation before column ft. -/
def futVal (rt : ℕ → ℕ → α) (qu qd face c : α) (ft : ℕ) : ℕ → ℕ → ℕ → α
  | 0, _, _ => (1 + c) * face
  | n + 1, k, j =>
      if ft < j then
        face * c + (1 / (1 + rt k j)) *
          (qu * futVal rt qu qd face c ft n k (j + 1) + qd * futVal rt qu qd face c ft n (k + 1) (j + 1))
      else if j = ft then
        (1 / (1 + rt k j)) *
          (qu * futVal rt qu qd face c ft n k (j + 1) + qd * futVal rt qu qd face c ft n (k + 1) (j + 1))
      else
        qu * futVal rt qu qd face c ft n k (j + 1) + qd * futVal rt qu qd face c ft n (k + 1) (j + 1)

/-- Backward induction for the caplet lattice: the terminal payoff at
column tm1 = t-1 is notional*max(rate-c,0)/(1+rate), earlier columns
are plain discounted expectations. -/
def capVal (rt : ℕ → ℕ → α) (qu qd notional c : α) (tm1 : ℕ) : ℕ → ℕ → ℕ → α
  | 0, k, _ => notional * max (rt k tm1 - c) 0 / (1 + rt k tm1)
  | n + 1, k, j =>
      (1 / (1 + rt k j)) *
        (qu * capVal rt qu qd notional c tm1 n k (j + 1)
          + qd * capVal rt qu qd notional c tm1 n (k + 1) (j + 1))

/-- Backward induction for the floorlet lattice: terminal payoff
notional*max(c-rate,0)/(1+rate). -/
def floorVal (rt : ℕ → ℕ → α) (qu qd notional c : α) (tm1 : ℕ) : ℕ → ℕ → ℕ → α
  | 0, k, _ => notional * max (c - rt k tm1) 0 / (1 + rt k tm1)
  | n + 1, k, j =>
      (1 / (1 + rt k j)) *
        (qu * floorVal rt qu qd notional c tm1 n k (j + 1)
          + qd * floorVal rt qu qd notional c tm1 n (k + 1) (j + 1))

/-- Backward induction for the (unit notional) swap lattice: terminal
column tm1 = t-1 pays (rate-c)/(1+rate), earlier columns accrue
(rate-c) inside the discounted expectation. -/
def swapVal (rt : ℕ → ℕ → α) (qu qd c : α) (tm1 : ℕ) : ℕ → ℕ → ℕ → α
  | 0, k, _ => (rt k tm1 - c) / (1 + rt k tm1)
  | n + 1, k, j =>
      (1 / (1 + rt k j)) *
        ((rt k j - c) + qu * swapVal rt qu qd c tm1 n k (j + 1)
          + qd * swapVal rt qu qd c tm1 n (k + 1) (j + 1))

/-- Backward induction for the (unit notional) swaption lattice below
the exercise column: at column ot the swap value is floored at 0, and
columns before ot are coupon-free discounted expectations.  The fuel
argument is ot - column. -/
def swpnVal (rt : ℕ → ℕ → α) (qu qd c : α) (ot tm1 : ℕ) : ℕ → ℕ → ℕ → α
  | 0, k, _ => max (swapVal rt qu qd c tm1 (tm1 - ot) k ot) 0
  | m + 1, k, j =>
      (1 / (1 + rt k j)) *
        (qu * swpnVal rt qu qd c ot tm1 m k (j + 1) + qd * swpnVal rt qu qd c ot tm1 m (k + 1) (j + 1))

end LatticeDefs

namespace Binomial

variable {α : Type} [LinearOrderedField α]

/-- rates_tree(r, u, d, t) of the simple model: a (t+1) x (t+1) array
with rt[0,j] = r*u^j and rt[i,j] = d*rt[i-1,j-1]; entries with i > j or
outside the array stay zero. -/
def rates_tree (r u d : α) (t : ℕ) (i j : ℕ) : α :=
  if i ≤ j ∧ j ≤ t then ratesRow r u d i j else 0

/-- elementary_price_tree(r, u, d, t, qu, qd): the elementary price
lattice of size (t+1) x (t+1) over the depth t-1 simple rate lattice. -/
def elementary_price_tree (r u d : α) (t : ℕ) (qu qd : α) (i j : ℕ) : α :=
  if i ≤ t ∧ j ≤ t then eptAux (rates_tree r u d (t - 1)) qu qd i j else 0

/-- zcb_price(face_value, t, r, u, d, qu, qd): the source returns the
whole backward-induction lattice; column t is face_value on every row,
column j < t is filled on rows 0..j, every other entry stays zero. -/
def zcb_price (face : α) (t : ℕ) (r u d qu qd : α) (k j : ℕ) : α :=
  if (j = t ∧ k ≤ t) ∨ (k ≤ j ∧ j < t) then
    zcbVal (rates_tree r u d (t - 1)) qu qd face (t - j) k j
  else 0

/-- cb_price(face_value, t, c, r, u, d, qu, qd): root of the coupon
bond lattice. -/
def cb_price (face : α) (t : ℕ) (c r u d qu qd : α) : α :=
  cbVal (rates_tree r u d (t - 1)) qu qd face c t 0 0

/-- cb_forward_price(face_value, ft, t, c, r, u, d, qu, qd): the source
divides the scalar root of the forward's coupon bond lattice by the
entire zcb_price lattice (numpy broadcasting), so the returned object
is an array indexed by (k, j). -/
def cb_forward_price (face : α) (ft t : ℕ) (c r u d qu qd : α) (k j : ℕ) : α :=
  fwdVal (rates_tree r u d (t - 1)) qu qd face c ft t 0 0 / zcb_price 1 ft r u d qu qd k j

/-- cb_futures_price(face_value, ft, t, c, r, u, d, qu, qd): root of
the futures lattice. -/
def cb_futures_price (face : α) (ft t : ℕ) (c r u d qu qd : α) : α :=
  futVal (rates_tree r u d (t - 1)) qu qd face c ft t 0 0

/-- caplet_price(notional_value, c, t, r, u, d, qu, qd): root of the
caplet lattice, whose terminal payoff sits at column t-1. -/
def caplet_price (notional c : α) (t : ℕ) (r u d qu qd : α) : α :=
  capVal (rates_tree r u d (t - 1)) qu qd notional c (t - 1) (t - 1) 0 0

/-- floorlet_price(notional_value, c, t, r, u, d, qu, qd): root of the
floorlet lattice. -/
def floorlet_price (notional c : α) (t : ℕ) (r u d qu qd : α) : α :=
  floorVal (rates_tree r u d (t - 1)) qu qd notional c (t - 1) (t - 1) 0 0

/-- swap_price(notional_value, c, t, r, u, d, qu, qd): notional times
the root of the unit swap lattice. -/
def swap_price (notional c : α) (t : ℕ) (r u d qu qd : α) : α :=
  notional * swapVal (rates_tree r u d (t - 1)) qu qd c (t - 1) (t - 1) 0 0

/-- swaption_price(notional_value, ot, c, t, r, u, d, qu, qd): notional
times the root of the swaption lattice (swap values down to column ot,
floored at 0 there, then discounted coupon-free to the root). -/
def swaption_price (notional : α) (ot : ℕ) (c : α) (t : ℕ) (r u d qu qd : α) : α :=
  notional * swpnVal (rates_tree r u d (t - 1)) qu qd c ot (t - 1) ot 0 0

end Binomial

namespace BDT

/-- rates_tree(a, b, t) of the BDT model: column j holds
a_j * exp(b*(j-i)) on rows i = 0..j (the reversed cumulative sum of
ones in the source is the exponent j-i), and the whole array is divided
by 100 on return. -/
noncomputable def rates_tree (a : ℕ → ℝ) (b : ℝ) (t : ℕ) (i j : ℕ) : ℝ :=
  (if i ≤ j ∧ j ≤ t then a j * Real.exp (b * ((j - i : ℕ) : ℝ)) else 0) / 100

/-- elementary_price_tree(a, b, t, qu): qd = 1 - qu, lattice of size
(t+1) x (t+1) over the depth t-1 BDT rate lattice; the induction loops
are the same as in the simple model's module. -/
noncomputable def elementary_price_tree (a : ℕ → ℝ) (b : ℝ) (t : ℕ) (qu : ℝ) (i j : ℕ) : ℝ :=
  if i ≤ t ∧ j ≤ t then eptAux (rates_tree a b (t - 1)) qu (1 - qu) i j else 0

/-- Result shape of the external scipy minimizer: fitted vector,
success flag and diagnostic message.  The optimizer itself is an
external collaborator and out of scope. -/
structure OptimizeResult where
  x : ℕ → ℚ
  success : Bool
  message : String

/-- Models the script lines res = minimize(objective, a, args=...) and
optimal_a = res.x: the fitted vector is read off the optimization
result unconditionally; res.success and res.message are never
consulted before the vector is used. -/
def optimal_a (res : OptimizeResult) : ℕ → ℚ := res.x

/-- Linear interpolation in the manner of np.interp on an increasing
sample grid: queries left of the first sample return the first value,
queries right of the last sample return the last value, and interior
queries interpolate between the bracketing samples. -/
def interp (q : ℚ) : List ℚ → List ℚ → ℚ
  | [_], y1 :: _ => y1
  | x1 :: x2 :: xs, y1 :: y2 :: ys =>
      if q ≤ x1 then y1
      else if q ≤ x2 then y1 + (y2 - y1) * (q - x1) / (x2 - x1)
      else interp q (x2 :: xs) (y2 :: ys)
  | _, _ => 0

/-- Observed tenor grid of the FRED yield series. -/
def fred_yield_yrs : List ℕ := [1, 2, 3, 5, 7, 10, 20, 30]

/-- load_market_rates(t), with the external FRED retrieval modelled by
the oracle obs mapping a tenor to its observed yield.  Note that the
source filters the interpolation years with `x not in fred_yields`,
i.e. against the observed yield values, not against the tenor grid. -/
def load_market_rates (obs : ℕ → ℚ) (t : ℕ) : List ℚ :=
  let fred_yield_yrs_upto_t := fred_yield_yrs.filter (fun x => x ≤ t)
  let fred_yields := (fred_yield_yrs.filter (fun x => x ≤ t)).map obs
  let linear_int := (List.range' 1 30).filter (fun x => ¬ ((x : ℚ) ∈ fred_yields) ∧ x ≤ t)
  linear_int.map (fun x => interp (x : ℚ) (fred_yield_yrs_upto_t.map (fun n => (n : ℚ))) fred_yields)

end BDT

/-!
Equation lemmas for the lattice recursions, and the column-sum algebra
used for the elementary price lattice.
-/

section LatticeLemmas

variable {α : Type} [LinearOrderedField α]

theorem eptAux_zero_zero (rt : ℕ → ℕ → α) (qu qd : α) : eptAux rt qu qd 0 0 = 1 := rfl

theorem eptAux_top (rt : ℕ → ℕ → α) (qu qd : α) (j : ℕ) :
    eptAux rt qu qd 0 (j + 1) = qu * (eptAux rt qu qd 0 j / (1 + rt 0 j)) := by
  simp [eptAux, eptCol]

theorem eptAux_diag (rt : ℕ → ℕ → α) (qu qd : α) (j : ℕ) :
    eptAux rt qu qd (j + 1) (j + 1) = qd * (eptAux rt qu qd j j / (1 + rt j j)) := by
  simp [eptAux, eptCol]

theorem eptAux_interior (rt : ℕ → ℕ → α) (qu qd : α) {k j : ℕ} (h : k + 1 ≤ j) :
    eptAux rt qu qd (k + 1) (j + 1)
      = qu * (1 / (1 + rt k j)) * eptAux rt qu qd k j
          + qd * (1 / (1 + rt (k + 1) j)) * eptAux rt qu qd (k + 1) j := by
  conv_lhs => rw [eptAux, eptCol]
  beta_reduce
  rw [if_neg (by omega), if_neg (by omega), if_pos h]
  simp [eptAux]

theorem eptAux_of_lt (rt : ℕ → ℕ → α) (qu qd : α) {k j : ℕ} (h : j < k) :
    eptAux rt qu qd k j = 0 := by
  cases j with
  | zero =>
      conv_lhs => rw [eptAux, eptCol]
      beta_reduce
      rw [if_neg (by omega)]
  | succ j =>
      conv_lhs => rw [eptAux, eptCol]
      beta_reduce
      rw [if_neg (by omega), if_neg (by omega), if_neg (by omega)]

theorem zcbVal_succ (rt : ℕ → ℕ → α) (qu qd face : α) (n k j : ℕ) :
    zcbVal rt qu qd face (n + 1) k j
      = (1 / (1 + rt k j)) *
          (qu * zcbVal rt qu qd face n k (j + 1) + qd * zcbVal rt qu qd face n (k + 1) (j + 1)) :=
  rfl

/-- Regrouping a backward induction step over a whole column: each node
k sends weight qu to successor row k and qd to successor row k+1. -/
theorem sum_shift (f V : ℕ → α) (qu qd : α) :
    ∀ j, ∑ k ∈ Finset.range (j + 1), f k * (qu * V k + qd * V (k + 1))
      = qu * f 0 * V 0
        + (∑ i ∈ Finset.range j, (qu * f (i + 1) + qd * f i) * V (i + 1))
        + qd * f j * V (j + 1)
  | 0 => by simp; ring
  | j + 1 => by
      rw [Finset.sum_range_succ, sum_shift f V qu qd j, Finset.sum_range_succ]
      ring

/-- Decomposition of a weighted sum over column j+1 of the elementary
price lattice in terms of column j: the first loop of the source puts
qu on the top edge and qd on the diagonal, the second loop puts qu on
the upper predecessor and qd on the lower one. -/
theorem ept_col_succ (rt : ℕ → ℕ → α) (qu qd : α) (V : ℕ → α) (j : ℕ) :
    ∑ m ∈ Finset.range (j + 1 + 1), eptAux rt qu qd m (j + 1) * V m
      = qu * (eptAux rt qu qd 0 j * (1 / (1 + rt 0 j))) * V 0
        + (∑ i ∈ Finset.range j,
            (qu * (eptAux rt qu qd i j * (1 / (1 + rt i j)))
              + qd * (eptAux rt qu qd (i + 1) j * (1 / (1 + rt (i + 1) j)))) * V (i + 1))
        + qd * (eptAux rt qu qd j j * (1 / (1 + rt j j))) * V (j + 1) := by
  have hmid : ∀ i ∈ Finset.range j,
      eptAux rt qu qd (i + 1) (j + 1) * V (i + 1)
        = (qu * (eptAux rt qu qd i j * (1 / (1 + rt i j)))
            + qd * (eptAux rt qu qd (i + 1) j * (1 / (1 + rt (i + 1) j)))) * V (i + 1) := by
    intro i hi
    rw [eptAux_interior rt qu qd (Nat.succ_le_of_lt (Finset.mem_range.mp hi))]
    ring
  calc ∑ m ∈ Finset.range (j + 1 + 1), eptAux rt qu qd m (j + 1) * V m
      = (∑ i ∈ Finset.range (j + 1), eptAux rt qu qd (i + 1) (j + 1) * V (i + 1))
          + eptAux rt qu qd 0 (j + 1) * V 0 :=
        Finset.sum_range_succ' (fun m => eptAux rt qu qd m (j + 1) * V m) (j + 1)
    _ = ((∑ i ∈ Finset.range j, eptAux rt qu qd (i + 1) (j + 1) * V (i + 1))
          + eptAux rt qu qd (j + 1) (j + 1) * V (j + 1))
          + eptAux rt qu qd 0 (j + 1) * V 0 := by
        rw [Finset.sum_range_succ]
    _ = _ := by
        rw [Finset.sum_congr rfl hmid, eptAux_top, eptAux_diag]
        ring

end LatticeLemmas

section ColumnSumLemmas

variable {α : Type} [LinearOrderedField α]

/-- One backward-induction step preserves the pairing of the zero
coupon bond lattice with the elementary price lattice when the two
risk-neutral weights are equal. -/
theorem ept_zcb_step (rt : ℕ → ℕ → α) (q face : α) (n j : ℕ) :
    ∑ k ∈ Finset.range (j + 1), eptAux rt q q k j * zcbVal rt q q face (n + 1) k j
      = ∑ k ∈ Finset.range (j + 1 + 1), eptAux rt q q k (j + 1) * zcbVal rt q q face n k (j + 1) := by
  have h1 : ∀ k ∈ Finset.range (j + 1),
      eptAux rt q q k j * zcbVal rt q q face (n + 1) k j
        = (eptAux rt q q k j * (1 / (1 + rt k j))) *
            (q * zcbVal rt q q face n k (j + 1) + q * zcbVal rt q q face n (k + 1) (j + 1)) := by
    intro k _
    rw [zcbVal_succ]
    ring
  have hs := sum_shift (fun k => eptAux rt q q k j * (1 / (1 + rt k j)))
      (fun m => zcbVal rt q q face n m (j + 1)) q q j
  have hc := ept_col_succ rt q q (fun m => zcbVal rt q q face n m (j + 1)) j
  rw [Finset.sum_congr rfl h1, hs, hc]
  have h2 : ∀ i ∈ Finset.range j,
      (q * (eptAux rt q q (i + 1) j * (1 / (1 + rt (i + 1) j)))
          + q * (eptAux rt q q i j * (1 / (1 + rt i j)))) * zcbVal rt q q face n (i + 1) (j + 1)
        = (q * (eptAux rt q q i j * (1 / (1 + rt i j)))
            + q * (eptAux rt q q (i + 1) j * (1 / (1 + rt (i + 1) j)))) *
              zcbVal rt q q face n (i + 1) (j + 1) := by
    intro i _
    ring
  rw [Finset.sum_congr rfl h2]

/-- Iterating the step: the root of the zero coupon bond lattice equals
the terminal column of the elementary price lattice paired with the
face value. -/
theorem ept_zcb_chain (rt : ℕ → ℕ → α) (q face : α) :
    ∀ n j, ∑ k ∈ Finset.range (j + 1), eptAux rt q q k j * zcbVal rt q q face n k j
      = ∑ k ∈ Finset.range (j + n + 1), eptAux rt q q k (j + n) * face
  | 0, j => by simp [zcbVal]
  | n + 1, j => by
      rw [ept_zcb_step rt q face n j, ept_zcb_chain rt q face n (j + 1)]
      rw [show j + 1 + n = j + (n + 1) by omega]

/-- Collapsing the edge-middle-edge decomposition when both weights are
the same q: every column j entry is counted with total weight 2q. -/
theorem edge_mid_edge (f : ℕ → α) (q : α) :
    ∀ j, q * f 0 + (∑ i ∈ Finset.range j, (q * f i + q * f (i + 1))) + q * f j
      = ∑ k ∈ Finset.range (j + 1), 2 * q * f k
  | 0 => by simp; ring
  | j + 1 => by
      rw [Finset.sum_range_succ, Finset.sum_range_succ, ← edge_mid_edge f q j]
      ring

/-- Column sum recurrence of the elementary price lattice for equal
weights. -/
theorem eptColSum_succ (rt : ℕ → ℕ → α) (q : α) (j : ℕ) :
    eptColSum rt q q (j + 1)
      = ∑ k ∈ Finset.range (j + 1), 2 * q * (eptAux rt q q k j * (1 / (1 + rt k j))) := by
  have hc := ept_col_succ rt q q (fun _ => 1) j
  simp only [mul_one] at hc
  have he := edge_mid_edge (fun k => eptAux rt q q k j * (1 / (1 + rt k j))) q j
  rw [eptColSum, hc, he]

end ColumnSumLemmas

section EptPositivity

variable {α : Type} [LinearOrderedField α]

/-- Nonnegativity of elementary prices over a rate lattice whose
in-range rates are positive. -/
theorem eptAux_nonneg (rt : ℕ → ℕ → α) (qu qd : α) (t : ℕ)
    (hr : ∀ i j, i ≤ j → j < t → 0 < rt i j) (hqu : 0 ≤ qu) (hqd : 0 ≤ qd) :
    ∀ j, j ≤ t → ∀ k, 0 ≤ eptAux rt qu qd k j
  | 0, _, k => by
      have h : eptAux rt qu qd k 0 = if k = 0 then 1 else 0 := rfl
      rw [h]
      split <;> norm_num
  | j + 1, hj, k => by
      have hjt : j < t := by omega
      have ih := eptAux_nonneg rt qu qd t hr hqu hqd j (by omega)
      match k with
      | 0 =>
          rw [eptAux_top]
          have hpos : (0 : α) < 1 + rt 0 j := by
            have := hr 0 j (Nat.zero_le j) hjt
            linarith
          exact mul_nonneg hqu (div_nonneg (ih 0) hpos.le)
      | k + 1 =>
          by_cases hdiag : k = j
          · subst hdiag
            rw [eptAux_diag]
            have hpos : (0 : α) < 1 + rt k k := by
              have := hr k k (le_refl k) hjt
              linarith
            exact mul_nonneg hqd (div_nonneg (ih k) hpos.le)
          · by_cases hint : k + 1 ≤ j
            · rw [eptAux_interior rt qu qd hint]
              have hp1 : (0 : α) < 1 + rt k j := by
                have := hr k j (by omega) hjt
                linarith
              have hp2 : (0 : α) < 1 + rt (k + 1) j := by
                have := hr (k + 1) j hint hjt
                linarith
              have t1 : (0 : α) ≤ qu * (1 / (1 + rt k j)) * eptAux rt qu qd k j :=
                mul_nonneg (mul_nonneg hqu (by positivity)) (ih k)
              have t2 : (0 : α) ≤ qd * (1 / (1 + rt (k + 1) j)) * eptAux rt qu qd (k + 1) j :=
                mul_nonneg (mul_nonneg hqd (by positivity)) (ih (k + 1))
              linarith
            · rw [eptAux_of_lt rt qu qd (show j + 1 < k + 1 by omega)]

/-- The top edge of the elementary price lattice is strictly positive
when qu is. -/
theorem eptAux_top_pos (rt : ℕ → ℕ → α) (qu qd : α) (t : ℕ)
    (hr : ∀ i j, i ≤ j → j < t → 0 < rt i j) (hqu : 0 < qu) :
    ∀ j, j ≤ t → 0 < eptAux rt qu qd 0 j
  | 0, _ => by rw [eptAux_zero_zero]; norm_num
  | j + 1, hj => by
      rw [eptAux_top]
      have hpos : (0 : α) < 1 + rt 0 j := by
        have := hr 0 j (Nat.zero_le j) (by omega)
        linarith
      exact mul_pos hqu (div_pos (eptAux_top_pos rt qu qd t hr hqu j (by omega)) hpos)

/-- Strict decrease of column sums for equal weights 1/2 over positive
rates. -/
theorem eptColSum_lt (rt : ℕ → ℕ → α) (t : ℕ)
    (hr : ∀ i j, i ≤ j → j < t → 0 < rt i j) {j : ℕ} (hj : j < t) :
    eptColSum rt (1 / 2) (1 / 2) (j + 1) < eptColSum rt (1 / 2) (1 / 2) j := by
  rw [eptColSum_succ, eptColSum]
  have h2 : (2 : α) * (1 / 2) = 1 := by norm_num
  apply Finset.sum_lt_sum
  · intro k hk
    have hk' : k ≤ j := by
      have := Finset.mem_range.mp hk
      omega
    have hrt := hr k j hk' hj
    have hpos : (0 : α) < 1 + rt k j := by linarith
    have hE := eptAux_nonneg rt (1 / 2) (1 / 2) t hr (by norm_num) (by norm_num) j hj.le k
    have h1 : 1 / (1 + rt k j) ≤ 1 := by
      rw [div_le_one hpos]
      linarith
    rw [h2, one_mul]
    exact mul_le_of_le_one_right hE h1
  · refine ⟨0, Finset.mem_range.mpr (by omega), ?_⟩
    have hrt := hr 0 j (Nat.zero_le j) hj
    have hpos : (0 : α) < 1 + rt 0 j := by linarith
    have hE := eptAux_top_pos rt (1 / 2) (1 / 2) t hr (by norm_num) j hj.le
    have h1 : 1 / (1 + rt 0 j) < 1 := by
      rw [div_lt_one hpos]
      linarith
    rw [h2, one_mul]
    exact mul_lt_of_lt_one_right hE h1

/-- Positivity of column sums for equal weights 1/2 over positive
rates. -/
theorem eptColSum_pos (rt : ℕ → ℕ → α) (t : ℕ)
    (hr : ∀ i j, i ≤ j → j < t → 0 < rt i j) {j : ℕ} (hj : j ≤ t) :
    0 < eptColSum rt (1 / 2) (1 / 2) j := by
  rw [eptColSum]
  apply Finset.sum_pos'
  · intro i _
    exact eptAux_nonneg rt (1 / 2) (1 / 2) t hr (by norm_num) (by norm_num) j hj i
  · exact ⟨0, Finset.mem_range.mpr (by omega),
      eptAux_top_pos rt (1 / 2) (1 / 2) t hr (by norm_num) j hj⟩

/-- Column sums never exceed 1 for equal weights 1/2 over positive
rates. -/
theorem eptColSum_le_one (rt : ℕ → ℕ → α) (t : ℕ)
    (hr : ∀ i j, i ≤ j → j < t → 0 < rt i j) :
    ∀ j, j ≤ t → eptColSum rt (1 / 2) (1 / 2) j ≤ 1
  | 0, _ => by simp [eptColSum, eptAux, eptCol]
  | j + 1, hj =>
      le_of_lt (lt_of_lt_of_le (eptColSum_lt rt t hr (by omega))
        (eptColSum_le_one rt t hr j (by omega)))

end EptPositivity

section PricerLemmas

variable {α : Type} [LinearOrderedField α]

/-- Closed form of the row recurrence of the simple rate lattice. -/
theorem ratesRow_closed (r u d : α) : ∀ i j, i ≤ j → ratesRow r u d i j = r * u ^ (j - i) * d ^ i
  | 0, j, _ => by simp [ratesRow]
  | i + 1, j, h => by
      rw [show ratesRow r u d (i + 1) j = d * ratesRow r u d i (j - 1) from rfl,
        ratesRow_closed r u d i (j - 1) (by omega), show j - 1 - i = j - (i + 1) by omega]
      ring

theorem fwdVal_succ (rt : ℕ → ℕ → α) (qu qd face c : α) (ft n k j : ℕ) :
    fwdVal rt qu qd face c ft (n + 1) k j
      = (if ft < j then face * c else 0) + (1 / (1 + rt k j)) *
          (qu * fwdVal rt qu qd face c ft n k (j + 1)
            + qd * fwdVal rt qu qd face c ft n (k + 1) (j + 1)) :=
  rfl

theorem futVal_succ (rt : ℕ → ℕ → α) (qu qd face c : α) (ft n k j : ℕ) :
    futVal rt qu qd face c ft (n + 1) k j
      = if ft < j then
          face * c + (1 / (1 + rt k j)) *
            (qu * futVal rt qu qd face c ft n k (j + 1)
              + qd * futVal rt qu qd face c ft n (k + 1) (j + 1))
        else if j = ft then
          (1 / (1 + rt k j)) *
            (qu * futVal rt qu qd face c ft n k (j + 1)
              + qd * futVal rt qu qd face c ft n (k + 1) (j + 1))
        else
          qu * futVal rt qu qd face c ft n k (j + 1)
            + qd * futVal rt qu qd face c ft n (k + 1) (j + 1) :=
  rfl

/-- From column ft on, the futures lattice and the forward's coupon
bond lattice coincide: the coupon branches agree strictly after ft and
at ft both take a discounted step with no coupon. -/
theorem futVal_eq_fwdVal (rt : ℕ → ℕ → α) (qu qd face c : α) (ft : ℕ) :
    ∀ n k j, ft ≤ j → futVal rt qu qd face c ft n k j = fwdVal rt qu qd face c ft n k j
  | 0, _, _, _ => rfl
  | n + 1, k, j, hj => by
      rw [futVal_succ, fwdVal_succ,
        futVal_eq_fwdVal rt qu qd face c ft n k (j + 1) (by omega),
        futVal_eq_fwdVal rt qu qd face c ft n (k + 1) (j + 1) (by omega)]
      rcases eq_or_lt_of_le hj with h | h
      · have h1 : ¬ ft < j := by omega
        have h2 : j = ft := h.symm
        simp only [if_neg h1, if_pos h2, zero_add]
      · simp only [if_pos h]

/-- Linearity of the zero coupon bond lattice in the face value. -/
theorem zcbVal_smul (rt : ℕ → ℕ → α) (qu qd l v : α) :
    ∀ n k j, zcbVal rt qu qd (l * v) n k j = l * zcbVal rt qu qd v n k j
  | 0, _, _ => rfl
  | n + 1, k, j => by
      rw [zcbVal_succ, zcbVal_succ, zcbVal_smul rt qu qd l v n k (j + 1),
        zcbVal_smul rt qu qd l v n (k + 1) (j + 1)]
      ring

/-- Linearity of the coupon bond lattice in the face value. -/
theorem cbVal_smul (rt : ℕ → ℕ → α) (qu qd l v c : α) :
    ∀ n k j, cbVal rt qu qd (l * v) c n k j = l * cbVal rt qu qd v c n k j
  | 0, _, _ => by
      show (1 + c) * (l * v) = l * ((1 + c) * v)
      ring
  | n + 1, k, j => by
      show l * v * c + _ = l * (v * c + _)
      rw [cbVal_smul rt qu qd l v c n k (j + 1), cbVal_smul rt qu qd l v c n (k + 1) (j + 1)]
      ring

/-- Linearity of the forward's coupon bond lattice in the face value. -/
theorem fwdVal_smul (rt : ℕ → ℕ → α) (qu qd l v c : α) (ft : ℕ) :
    ∀ n k j, fwdVal rt qu qd (l * v) c ft n k j = l * fwdVal rt qu qd v c ft n k j
  | 0, _, _ => by
      show (1 + c) * (l * v) = l * ((1 + c) * v)
      ring
  | n + 1, k, j => by
      rw [fwdVal_succ, fwdVal_succ, fwdVal_smul rt qu qd l v c ft n k (j + 1),
        fwdVal_smul rt qu qd l v c ft n (k + 1) (j + 1)]
      split_ifs <;> ring

/-- Linearity of the futures lattice in the face value. -/
theorem futVal_smul (rt : ℕ → ℕ → α) (qu qd l v c : α) (ft : ℕ) :
    ∀ n k j, futVal rt qu qd (l * v) c ft n k j = l * futVal rt qu qd v c ft n k j
  | 0, _, _ => by
      show (1 + c) * (l * v) = l * ((1 + c) * v)
      ring
  | n + 1, k, j => by
      rw [futVal_succ, futVal_succ, futVal_smul rt qu qd l v c ft n k (j + 1),
        futVal_smul rt qu qd l v c ft n (k + 1) (j + 1)]
      split_ifs <;> ring

/-- Linearity of the caplet lattice in the notional. -/
theorem capVal_smul (rt : ℕ → ℕ → α) (qu qd l v c : α) (tm1 : ℕ) :
    ∀ n k j, capVal rt qu qd (l * v) c tm1 n k j = l * capVal rt qu qd v c tm1 n k j
  | 0, k, j => by
      show l * v * max (rt k tm1 - c) 0 / (1 + rt k tm1)
        = l * (v * max (rt k tm1 - c) 0 / (1 + rt k tm1))
      ring
  | n + 1, k, j => by
      show (1 / (1 + rt k j)) * _ = l * ((1 / (1 + rt k j)) * _)
      rw [capVal_smul rt qu qd l v c tm1 n k (j + 1), capVal_smul rt qu qd l v c tm1 n (k + 1) (j + 1)]
      ring

/-- Linearity of the floorlet lattice in the notional. -/
theorem floorVal_smul (rt : ℕ → ℕ → α) (qu qd l v c : α) (tm1 : ℕ) :
    ∀ n k j, floorVal rt qu qd (l * v) c tm1 n k j = l * floorVal rt qu qd v c tm1 n k j
  | 0, k, j => by
      show l * v * max (c - rt k tm1) 0 / (1 + rt k tm1)
        = l * (v * max (c - rt k tm1) 0 / (1 + rt k tm1))
      ring
  | n + 1, k, j => by
      show (1 / (1 + rt k j)) * _ = l * ((1 / (1 + rt k j)) * _)
      rw [floorVal_smul rt qu qd l v c tm1 n k (j + 1),
        floorVal_smul rt qu qd l v c tm1 n (k + 1) (j + 1)]
      ring

end PricerLemmas

/-!
Claim theorems.
-/

section Claims

variable {α : Type} [LinearOrderedField α]

/-- C1: cb_forward_price does not return the single scalar
cb_root/zcb_root.  The source divides the scalar root of the coupon
bond lattice by the entire zcb_price lattice, so the returned object is
an array: at the failing input its (0,0) entry is 10/11 (the claimed
scalar) but its (0,1) entry is 100/121, a different value. -/
theorem cb_forward_price_returns_lattice :
    Binomial.cb_forward_price (1 : ℚ) 1 2 0 (1 / 10) 1 1 (1 / 2) (1 / 2) 0 0 = 10 / 11
      ∧ Binomial.cb_forward_price (1 : ℚ) 1 2 0 (1 / 10) 1 1 (1 / 2) (1 / 2) 0 1 = 100 / 121
      ∧ (10 / 11 : ℚ) ≠ 100 / 121 := by
  refine ⟨?_, ?_, by norm_num⟩ <;>
    · simp only [Binomial.cb_forward_price, Binomial.zcb_price, fwdVal, zcbVal,
        Binomial.rates_tree, ratesRow]
      norm_num

/-- C2 counterexample: at qu = 3/5, qd = 2/5 (a legitimate probability
pair) with t = 2 the backward-induction root is 1 while the elementary
lattice column sum times the face value is 26/25, so the claim fails
for general probability parameters. -/
theorem zcb_vs_ept_colsum_cex :
    Binomial.zcb_price (1 : ℚ) 2 0 1 1 (3 / 5) (2 / 5) 0 0
      ≠ 1 * ∑ i ∈ Finset.range 3, Binomial.elementary_price_tree (0 : ℚ) 1 1 2 (3 / 5) (2 / 5) i 2 := by
  simp only [Finset.sum_range_succ, Finset.sum_range_zero]
  simp only [Binomial.zcb_price, Binomial.elementary_price_tree, eptAux, eptCol, zcbVal,
    Binomial.rates_tree, ratesRow]
  norm_num

/-- C2 (amended): when the two risk-neutral weights are equal the root
of the zcb_price lattice equals face_value times the sum of the
terminal column of elementary_price_tree, for every maturity t with
1 <= t. -/
theorem zcb_price_eq_ept_colsum_of_eq_probs (face r u d q : α) (t : ℕ) (ht : 1 ≤ t) :
    Binomial.zcb_price face t r u d q q 0 0
      = face * ∑ i ∈ Finset.range (t + 1), Binomial.elementary_price_tree r u d t q q i t := by
  have hchain := ept_zcb_chain (Binomial.rates_tree r u d (t - 1)) q face t 0
  simp only [Finset.sum_range_one, eptAux_zero_zero, one_mul, Nat.zero_add] at hchain
  have hz : Binomial.zcb_price face t r u d q q 0 0
      = zcbVal (Binomial.rates_tree r u d (t - 1)) q q face t 0 0 := by
    simp only [Binomial.zcb_price]
    rw [if_pos (Or.inr ⟨le_refl 0, by omega⟩), Nat.sub_zero]
  rw [hz, hchain]
  have he : ∀ i ∈ Finset.range (t + 1),
      Binomial.elementary_price_tree r u d t q q i t
        = eptAux (Binomial.rates_tree r u d (t - 1)) q q i t := by
    intro i hi
    have hi2 : i ≤ t := by
      have := Finset.mem_range.mp hi
      omega
    simp only [Binomial.elementary_price_tree]
    rw [if_pos ⟨hi2, le_refl t⟩]
  rw [Finset.sum_congr rfl he, Finset.mul_sum]
  exact Finset.sum_congr rfl (fun i _ => mul_comm _ _)

/-- C2 witness: the amended identity at face 1, t = 2, q = 1/2. -/
theorem zcb_price_eq_ept_colsum_witness :
    (1 : ℕ) ≤ 2
      ∧ Binomial.zcb_price (1 : ℚ) 2 (1 / 10) 1 1 (1 / 2) (1 / 2) 0 0
          = 1 * ∑ i ∈ Finset.range (2 + 1),
              Binomial.elementary_price_tree (1 / 10 : ℚ) 1 1 2 (1 / 2) (1 / 2) i 2 :=
  ⟨by decide, zcb_price_eq_ept_colsum_of_eq_probs 1 (1 / 10) 1 1 (1 / 2) 2 (by decide)⟩

/-- C3 counterexample: with a constant parameter vector 100 and b = 0
the (0,0) entry of the BDT rates_tree is 1, not
a_0 * exp(b * (0 - 0)) = 100, because the builder divides the array by
100 on return. -/
theorem bdt_rates_tree_percent_cex :
    BDT.rates_tree (fun _ => (100 : ℝ)) 0 0 0 0 = 1
      ∧ (fun _ => (100 : ℝ)) 0 * Real.exp (0 * ((0 : ℝ) - 0)) = 100
      ∧ (1 : ℝ) ≠ 100 := by
  refine ⟨?_, ?_, by norm_num⟩
  · simp only [BDT.rates_tree]
    norm_num
  · norm_num

/-- C3 (amended): the BDT rates_tree entry at 0 <= i <= j <= t is
a_j * exp(b * (j - i)) / 100 (the builder converts percent to decimal
by dividing the array by 100), and 0 below the diagonal. -/
theorem bdt_rates_tree_entry (a : ℕ → ℝ) (b : ℝ) (t i j : ℕ) :
    (i ≤ j → j ≤ t → BDT.rates_tree a b t i j = a j * Real.exp (b * ((j : ℝ) - (i : ℝ))) / 100)
      ∧ (j < i → BDT.rates_tree a b t i j = 0) := by
  constructor
  · intro h1 h2
    simp only [BDT.rates_tree]
    rw [if_pos ⟨h1, h2⟩, Nat.cast_sub h1]
  · intro h
    simp only [BDT.rates_tree]
    rw [if_neg (by omega)]
    norm_num

/-- C3 witness: the amended closed form at a constant parameter vector,
b = 0, t = 1, entry (0, 1). -/
theorem bdt_rates_tree_entry_witness :
    ((0 : ℕ) ≤ 1 ∧ (1 : ℕ) ≤ 1)
      ∧ BDT.rates_tree (fun _ => (100 : ℝ)) 0 1 0 1
          = (fun _ => (100 : ℝ)) 1 * Real.exp (0 * (((1 : ℕ) : ℝ) - ((0 : ℕ) : ℝ))) / 100 :=
  ⟨⟨by decide, by decide⟩,
    (bdt_rates_tree_entry (fun _ => (100 : ℝ)) 0 1 0 1).1 (by decide) (by decide)⟩

/-- C4 counterexample: with t = 2, qu = 0 (inside the claimed range
0 <= qu <= 1), qd = 1 - qu = 1 and all lattice rates equal to the
positive value 1/20, the sum of column 2 of the elementary price
lattice is 800/441 > 1, so the column sums are neither strictly
decreasing nor contained in (0, 1]. -/
theorem ept_colsum_not_monotone_cex :
    (0 : ℚ) < Binomial.rates_tree (1 / 20 : ℚ) 1 1 1 0 0
      ∧ (0 : ℚ) < Binomial.rates_tree (1 / 20 : ℚ) 1 1 1 0 1
      ∧ (0 : ℚ) < Binomial.rates_tree (1 / 20 : ℚ) 1 1 1 1 1
      ∧ (1 : ℚ) < ∑ i ∈ Finset.range 3, Binomial.elementary_price_tree (1 / 20 : ℚ) 1 1 2 0 1 i 2 := by
  refine ⟨?_, ?_, ?_, ?_⟩
  · simp only [Binomial.rates_tree, ratesRow]
    norm_num
  · simp only [Binomial.rates_tree, ratesRow]
    norm_num
  · simp only [Binomial.rates_tree, ratesRow]
    norm_num
  · simp only [Finset.sum_range_succ, Finset.sum_range_zero]
    simp only [Binomial.elementary_price_tree, eptAux, eptCol, Binomial.rates_tree, ratesRow]
    norm_num

/-- C4 (amended): for equal weights qu = qd = 1/2, if every in-range
rate of the underlying lattice is strictly positive then the column
sums of the elementary price lattice are strictly decreasing up to the
horizon and each lies in (0, 1].  Both modules' elementary price trees
are instances of eptAux. -/
theorem ept_colsum_mono_of_half (rt : ℕ → ℕ → α) (t : ℕ)
    (hr : ∀ i j, i ≤ j → j < t → 0 < rt i j) :
    (∀ j, j < t → eptColSum rt (1 / 2) (1 / 2) (j + 1) < eptColSum rt (1 / 2) (1 / 2) j)
      ∧ (∀ j, j ≤ t → 0 < eptColSum rt (1 / 2) (1 / 2) j ∧ eptColSum rt (1 / 2) (1 / 2) j ≤ 1) :=
  ⟨fun _ hj => eptColSum_lt rt t hr hj,
    fun j hj => ⟨eptColSum_pos rt t hr hj, eptColSum_le_one rt t hr j hj⟩⟩

/-- C4 witness: the amended statement on the constant rate lattice 1
with horizon 1. -/
theorem ept_colsum_mono_witness :
    (∀ i j : ℕ, i ≤ j → j < 1 → (0 : ℚ) < 1)
      ∧ eptColSum (fun _ _ => (1 : ℚ)) (1 / 2) (1 / 2) (0 + 1)
          < eptColSum (fun _ _ => (1 : ℚ)) (1 / 2) (1 / 2) 0 :=
  ⟨fun _ _ _ _ => one_pos,
    (ept_colsum_mono_of_half (fun _ _ => (1 : ℚ)) 1 (fun _ _ _ _ => one_pos)).1 0 (by decide)⟩

/-- C5: the simple model rates_tree has entry r * u^(j-i) * d^i at
every position 0 <= i <= j <= t and is zero below the diagonal. -/
theorem rates_tree_entry_closed_form (r u d : α) (t i j : ℕ) :
    (i ≤ j → j ≤ t → Binomial.rates_tree r u d t i j = r * u ^ (j - i) * d ^ i)
      ∧ (j < i → Binomial.rates_tree r u d t i j = 0) := by
  constructor
  · intro h1 h2
    simp only [Binomial.rates_tree]
    rw [if_pos ⟨h1, h2⟩, ratesRow_closed r u d i j h1]
  · intro h
    simp only [Binomial.rates_tree]
    rw [if_neg (by omega)]

/-- C5 witness: the closed form at r = 2, u = 3, d = 5, entry (1, 2)
of the depth 3 lattice. -/
theorem rates_tree_entry_witness :
    ((1 : ℕ) ≤ 2 ∧ (2 : ℕ) ≤ 3)
      ∧ Binomial.rates_tree (2 : ℚ) 3 5 3 1 2 = 2 * 3 ^ (2 - 1) * 5 ^ 1 :=
  ⟨⟨by decide, by decide⟩,
    (rates_tree_entry_closed_form (2 : ℚ) 3 5 3 1 2).1 (by decide) (by decide)⟩

/-- C6: the futures lattice agrees with the forward's coupon bond
lattice on every column from ft through t (same coupon accrual, and a
discounted no-coupon step at column ft), every column before ft is the
plain probability-weighted expectation of its successor column with no
discounting and no coupon, and cb_futures_price returns the root. -/
theorem cb_futures_price_structure (face c r u d qu qd : α) (ft t : ℕ)
    (h1 : 0 < ft) (h2 : ft < t) :
    (∀ k j, ft ≤ j → j ≤ t →
        futVal (Binomial.rates_tree r u d (t - 1)) qu qd face c ft (t - j) k j
          = fwdVal (Binomial.rates_tree r u d (t - 1)) qu qd face c ft (t - j) k j)
      ∧ (∀ k j, j < ft →
          futVal (Binomial.rates_tree r u d (t - 1)) qu qd face c ft (t - j) k j
            = qu * futVal (Binomial.rates_tree r u d (t - 1)) qu qd face c ft (t - (j + 1)) k (j + 1)
              + qd * futVal (Binomial.rates_tree r u d (t - 1)) qu qd face c ft (t - (j + 1)) (k + 1) (j + 1))
      ∧ Binomial.cb_futures_price face ft t c r u d qu qd
          = futVal (Binomial.rates_tree r u d (t - 1)) qu qd face c ft t 0 0 := by
  refine ⟨?_, ?_, rfl⟩
  · intro k j hj _
    exact futVal_eq_fwdVal _ qu qd face c ft (t - j) k j hj
  · intro k j hj
    rw [show t - j = (t - (j + 1)) + 1 by omega, futVal_succ,
      if_neg (by omega), if_neg (by omega)]

/-- C6 witness: the structural description at ft = 1, t = 2. -/
theorem cb_futures_price_structure_witness :
    ((0 : ℕ) < 1 ∧ (1 : ℕ) < 2)
      ∧ Binomial.cb_futures_price (1 : ℚ) 1 2 0 (1 / 10) 1 1 (1 / 2) (1 / 2)
          = futVal (Binomial.rates_tree (1 / 10 : ℚ) 1 1 (2 - 1)) (1 / 2) (1 / 2) 1 0 1 2 0 0 :=
  ⟨⟨by decide, by decide⟩,
    (cb_futures_price_structure (1 : ℚ) 0 (1 / 10) 1 1 (1 / 2) (1 / 2) 1 2
      (by decide) (by decide)).2.2⟩

/-- C7: every pricer is homogeneous of degree 1 in its face or notional
amount: scaling the face/notional by a nonnegative lambda scales the
returned value (or every entry of the returned array, for zcb_price
and cb_forward_price) by lambda. -/
theorem pricers_homogeneous (lam v c r u d qu qd : α) (t ft ot : ℕ) (hl : 0 ≤ lam) :
    (∀ k j, Binomial.zcb_price (lam * v) t r u d qu qd k j
        = lam * Binomial.zcb_price v t r u d qu qd k j)
      ∧ Binomial.cb_price (lam * v) t c r u d qu qd = lam * Binomial.cb_price v t c r u d qu qd
      ∧ (∀ k j, Binomial.cb_forward_price (lam * v) ft t c r u d qu qd k j
          = lam * Binomial.cb_forward_price v ft t c r u d qu qd k j)
      ∧ Binomial.cb_futures_price (lam * v) ft t c r u d qu qd
          = lam * Binomial.cb_futures_price v ft t c r u d qu qd
      ∧ Binomial.caplet_price (lam * v) c t r u d qu qd
          = lam * Binomial.caplet_price v c t r u d qu qd
      ∧ Binomial.floorlet_price (lam * v) c t r u d qu qd
          = lam * Binomial.floorlet_price v c t r u d qu qd
      ∧ Binomial.swap_price (lam * v) c t r u d qu qd
          = lam * Binomial.swap_price v c t r u d qu qd
      ∧ Binomial.swaption_price (lam * v) ot c t r u d qu qd
          = lam * Binomial.swaption_price v ot c t r u d qu qd := by
  refine ⟨?_, ?_, ?_, ?_, ?_, ?_, ?_, ?_⟩
  · intro k j
    simp only [Binomial.zcb_price]
    split_ifs
    · exact zcbVal_smul _ qu qd lam v _ k j
    · rw [mul_zero]
  · exact cbVal_smul _ qu qd lam v c t 0 0
  · intro k j
    simp only [Binomial.cb_forward_price]
    rw [fwdVal_smul _ qu qd lam v c ft t 0 0, mul_div_assoc]
  · exact futVal_smul _ qu qd lam v c ft t 0 0
  · exact capVal_smul _ qu qd lam v c (t - 1) (t - 1) 0 0
  · exact floorVal_smul _ qu qd lam v c (t - 1) (t - 1) 0 0
  · exact mul_assoc lam v _
  · exact mul_assoc lam v _

/-- C7 witness: homogeneity of cb_price at lambda = 2, v = 3. -/
theorem pricers_homogeneous_witness :
    (0 : ℚ) ≤ 2
      ∧ Binomial.cb_price ((2 : ℚ) * 3) 2 0 (1 / 10) 1 1 (1 / 2) (1 / 2)
          = 2 * Binomial.cb_price 3 2 0 (1 / 10) 1 1 (1 / 2) (1 / 2) :=
  ⟨zero_le_two,
    (pricers_homogeneous (2 : ℚ) 3 0 (1 / 10) 1 1 (1 / 2) (1 / 2) 2 1 1 zero_le_two).2.1⟩

/-- C8: the calibration script reads the fitted vector off the
optimizer result unconditionally; when the minimizer reports failure
(success flag false, diagnostic message set) the fitted vector is still
returned as if calibration had succeeded and no CalibrationFailed
outcome exists. -/
theorem calibration_ignores_success_flag :
    ∃ res : BDT.OptimizeResult, res.success = false
      ∧ res.message = "Desired error not necessarily achieved due to precision loss."
      ∧ BDT.optimal_a res = res.x :=
  ⟨⟨fun _ => 5, false, "Desired error not necessarily achieved due to precision loss."⟩,
    rfl, rfl, rfl⟩

/-- C9: with observed yields 2 and 3 at tenors 1 and 2 and horizon
t = 2, load_market_rates drops the year-2 grid point because the
source filters the interpolation years against the observed yield
values rather than against the tenor grid, so the returned curve is
[2], of length 1 instead of one yield per year 1..2. -/
theorem load_market_rates_drops_year :
    BDT.load_market_rates (fun n => if n = 1 then 2 else 3) 2 = [2]
      ∧ (BDT.load_market_rates (fun n => if n = 1 then 2 else 3) 2).length ≠ 2 := by
  constructor
  · rfl
  · intro h
    rw [show BDT.load_market_rates (fun n => if n = 1 then 2 else 3) 2 = [2] from rfl] at h
    simp at h

/-- C10: with exercise date ot = 0 the swaption price is the positive
part of the swap price, for nonnegative notional. -/
theorem swaption_at_zero_exercise (notional c r u d qu qd : α) (t : ℕ)
    (hn : 0 ≤ notional) (ht : 2 ≤ t) :
    Binomial.swaption_price notional 0 c t r u d qu qd
      = max (Binomial.swap_price notional c t r u d qu qd) 0 := by
  have h0 : Binomial.swaption_price notional 0 c t r u d qu qd
      = notional * max (swapVal (Binomial.rates_tree r u d (t - 1)) qu qd c (t - 1) (t - 1) 0 0) 0 :=
    rfl
  rw [h0, show Binomial.swap_price notional c t r u d qu qd
      = notional * swapVal (Binomial.rates_tree r u d (t - 1)) qu qd c (t - 1) (t - 1) 0 0 from rfl,
    mul_max_of_nonneg _ _ hn, mul_zero]

/-- C10 witness: the identity at notional 1, t = 2. -/
theorem swaption_at_zero_witness :
    ((0 : ℚ) ≤ 1 ∧ (2 : ℕ) ≤ 2)
      ∧ Binomial.swaption_price (1 : ℚ) 0 (1 / 20) 2 (1 / 10) 1 1 (1 / 2) (1 / 2)
          = max (Binomial.swap_price (1 : ℚ) (1 / 20) 2 (1 / 10) 1 1 (1 / 2) (1 / 2)) 0 :=
  ⟨⟨zero_le_one, by decide⟩,
    swaption_at_zero_exercise 1 (1 / 20) (1 / 10) 1 1 (1 / 2) (1 / 2) 2 zero_le_one (by decide)⟩

end Claims
